import Mathlib

/-!
Verification of the tuber subtitle/download tool core.

Strings are modelled as lists of characters (Go ranges over runes); Go's
byte-length of a UTF-8 string is modelled by the function utf8Len.
The two program variants (main.go and the multi-select variant) are both
embedded; near-duplicate functions are transcribed separately where the
source duplicates them.
-/

namespace Tuber

/-- Go unicode.IsSpace on a rune: the White_Space code points used by
strings.TrimSpace. -/
def goIsSpace (c : Char) : Bool :=
  let n := c.toNat
  (9 ≤ n && n ≤ 13) || n == 32 || n == 0x85 || n == 0xA0 || n == 0x1680 ||
  (0x2000 ≤ n && n ≤ 0x200A) || n == 0x2028 || n == 0x2029 || n == 0x202F ||
  n == 0x205F || n == 0x3000

/-- Go strings.TrimSpace: drop leading whitespace. -/
def trimLeft (s : List Char) : List Char := s.dropWhile goIsSpace

/-- Go strings.TrimSpace: drop trailing whitespace. -/
def trimRight (s : List Char) : List Char := (s.reverse.dropWhile goIsSpace).reverse

/-- Go strings.TrimSpace: drop leading and trailing whitespace. -/
def trimSpace (s : List Char) : List Char := trimRight (trimLeft s)

/-- Go strings.Contains s sub: sub occurs as a contiguous substring of s. -/
def hasSub : List Char → List Char → Bool
  | [], sub => sub.isEmpty
  | c :: t, sub => sub.isPrefixOf (c :: t) || hasSub t sub

/-- Number of bytes of the UTF-8 encoding of one character. -/
def utf8Width (c : Char) : Nat :=
  if c.toNat < 0x80 then 1 else if c.toNat < 0x800 then 2
  else if c.toNat < 0x10000 then 3 else 4

/-- Go len of a string: the byte length of its UTF-8 encoding. -/
def utf8Len : List Char → Nat
  | [] => 0
  | c :: t => utf8Width c + utf8Len t

/-- Go strings.Split on a single newline character. -/
def splitOnNL : List Char → List (List Char)
  | [] => [[]]
  | c :: t =>
    if c = '\n' then [] :: splitOnNL t
    else
      match splitOnNL t with
      | [] => [[c]]
      | h :: r => (c :: h) :: r

/-- Go strings.Join with separator newline. -/
def joinNL : List (List Char) → List Char
  | [] => []
  | [l] => l
  | l :: l2 :: ls => l ++ '\n' :: joinNL (l2 :: ls)

/-- One step of the strings.NewReplacer used by sanitizeFilename (all its
patterns are single ASCII characters, so the replacer acts per character). -/
def replaceChar (c : Char) : List Char :=
  if c = '/' then ['-'] else if c = '\\' then ['-'] else if c = ':' then ['-']
  else if c = '*' then [] else if c = '?' then [] else if c = '"' then []
  else if c = '<' then [] else if c = '>' then [] else if c = '|' then [] else [c]

/-- sanitizeFilename from main.go (identical in both variants): replace or
remove characters that are problematic in filenames. -/
def sanitizeFilename : List Char → List Char
  | [] => []
  | c :: s => replaceChar c ++ sanitizeFilename s

/-- isTimestamp from main.go: contains a colon, contains a period or a
comma, and its (byte) length is under 30. -/
def isTimestamp (line : List Char) : Bool :=
  hasSub line [':'] && (hasSub line ['.'] || hasSub line [',']) &&
    decide (utf8Len line < 30)

/-- Loop body of stripTags from main.go, with the inTag flag explicit. -/
def stripTagsAux : Bool → List Char → List Char
  | _, [] => []
  | inTag, r :: rest =>
    if r = '<' then stripTagsAux true rest
    else if r = '>' then stripTagsAux false rest
    else if inTag then stripTagsAux inTag rest
    else r :: stripTagsAux inTag rest

/-- stripTags from main.go: drop everything from a '<' to the next '>',
and drop every '<' and '>'. -/
def stripTags (s : List Char) : List Char := stripTagsAux false s

/-- The inTag state left behind after scanning a list of characters,
starting from a given state (used only in proofs about stripTags). -/
def tagState : Bool → List Char → Bool
  | t, [] => t
  | t, r :: rest =>
    if r = '<' then tagState true rest
    else if r = '>' then tagState false rest
    else tagState t rest

/-- The skip condition of the line loop in extractText / dedupeVTT:
header, metadata, cue-timing and timestamp-like lines are discarded. -/
def skipLine (l : List Char) : Bool :=
  decide (l = []) || decide (l = ("WEBVTT").data) ||
  decide (l = ("Kind: captions").data) ||
  ("Language:").data.isPrefixOf l || hasSub l ("-->").data ||
  ("NOTE").data.isPrefixOf l || isTimestamp l

/-- One iteration of the line loop of extractText (main.go): trim, test the
skip condition, strip tags, trim again, and drop the line if it became
empty; returns the cleaned line when it is kept. -/
def keepLine (line : List Char) : Option (List Char) :=
  if skipLine (trimSpace line) then none
  else if trimSpace (stripTags (trimSpace line)) = [] then none
  else some (trimSpace (stripTags (trimSpace line)))

/-- The line loop of extractText (main.go) with its seen set explicit:
cleaned lines already seen are dropped, new ones are appended and
recorded. -/
def normalizeAux (seen : List (List Char)) : List (List Char) → List (List Char)
  | [] => []
  | line :: rest =>
    match keepLine line with
    | none => normalizeAux seen rest
    | some u =>
      if u ∈ seen then normalizeAux seen rest
      else u :: normalizeAux (u :: seen) rest

/-- extractText from main.go, as a function from file content to the
returned transcript string. -/
def extractText (content : List Char) : List Char :=
  joinNL (normalizeAux [] (splitOnNL content))

/-- One iteration of the line loop of dedupeVTT (main.go), transcribed
separately because the source duplicates the loop. -/
def keepLineD (line : List Char) : Option (List Char) :=
  if skipLine (trimSpace line) then none
  else if trimSpace (stripTags (trimSpace line)) = [] then none
  else some (trimSpace (stripTags (trimSpace line)))

/-- The line loop of dedupeVTT (main.go), transcribed separately. -/
def normalizeAuxD (seen : List (List Char)) : List (List Char) → List (List Char)
  | [] => []
  | line :: rest =>
    match keepLineD line with
    | none => normalizeAuxD seen rest
    | some u =>
      if u ∈ seen then normalizeAuxD seen rest
      else u :: normalizeAuxD (u :: seen) rest

/-- dedupeVTT from main.go, as a function from file content to the string
it writes to its output path. -/
def dedupeVTT (content : List Char) : List Char :=
  joinNL (normalizeAuxD [] (splitOnNL content))

/-- Download steps of the multi-select variant's orchestrator. -/
inductive Step
  | video
  | audio
  | subs
deriving DecidableEq

/-- DownloadOptions of the multi-select variant. -/
structure DownloadOptions where
  video : Bool
  audio : Bool
  subs : Bool
  summary : Bool
  prompt : List Char

/-- Whether a step's artifact was requested. -/
def requested (opts : DownloadOptions) : Step → Bool
  | .video => opts.video
  | .audio => opts.audio
  | .subs => opts.subs

/-- Step-list construction of initialDownloadModel: video, then audio,
then subs, each included only when requested. -/
def buildSteps (opts : DownloadOptions) : List Step :=
  (if opts.video then [Step.video] else []) ++
  (if opts.audio then [Step.audio] else []) ++
  (if opts.subs then [Step.subs] else [])

/-- Sequential execution of the downloadModel update loop: run each step
in order with the external fetch tool, stop at the first error. Returns
the list of steps actually invoked together with the propagated error
text (errors are modelled as strings; the loop passes them through
unchanged). -/
def runSteps (fetch : Step → Option (List Char)) : List Step → List Step × Option (List Char)
  | [] => ([], none)
  | s :: rest =>
    match fetch s with
    | some e => ([s], some e)
    | none =>
      let r := runSteps fetch rest
      (s :: r.1, r.2)

/-- runDownload of the single-select variant in ModeAll: video, audio,
subtitles in order, each error wrapped with a stage-naming message. -/
def runDownloadAll (fetch : Step → Option (List Char)) : List Step × Option (List Char) :=
  match fetch Step.video with
  | some e => ([Step.video], some (("video download failed: ").data ++ e))
  | none =>
    match fetch Step.audio with
    | some e => ([Step.video, Step.audio], some (("audio download failed: ").data ++ e))
    | none =>
      match fetch Step.subs with
      | some e =>
        ([Step.video, Step.audio, Step.subs],
          some (("subtitle download failed: ").data ++ e))
      | none => ([Step.video, Step.audio, Step.subs], none)

/-- Index of the last '/' in a list of characters, if any
(Go strings.LastIndex with "/" — the character is ASCII, so byte and
character indices of the slash agree on the portion before it). -/
def lastSlashIdx : List Char → Option Nat
  | [] => none
  | c :: t =>
    match lastSlashIdx t with
    | some i => some (i + 1)
    | none => if c = '/' then some 0 else none

/-- Search-directory computation of doDownloadSubs (multi-select variant):
default to the output directory (or "."), and when a custom output stem is
set whose last slash sits at a positive index, use the part before it. -/
def searchDirFor (outDir custom : List Char) : List Char :=
  let d := if outDir = [] then (".").data else outDir
  if custom = [] then d
  else
    match lastSlashIdx custom with
    | some i => if 0 < i then custom.take i else d
    | none => d

/-- The nine characters the sanitizer must never emit. -/
def badChars : List Char := ['/', '\\', ':', '*', '?', '"', '<', '>', '|']

/-- Spec-side statement of the line filter: a line is discarded when, after
trimming, it is empty, a header or metadata line, a cue-timing line, a
timestamp-like line, or empty once tags are stripped (and trimmed again). -/
def droppedSpec (line : List Char) : Prop :=
  trimSpace line = [] ∨ trimSpace line = ("WEBVTT").data ∨
  trimSpace line = ("Kind: captions").data ∨
  ("Language:").data <+: trimSpace line ∨ ("NOTE").data <+: trimSpace line ∨
  ("-->").data <:+: trimSpace line ∨
  (':' ∈ trimSpace line ∧ ('.' ∈ trimSpace line ∨ ',' ∈ trimSpace line) ∧
    utf8Len (trimSpace line) < 30) ∨
  trimSpace (stripTags (trimSpace line)) = []

/-- Spec-side deduplication: keep the first occurrence of each element,
deleting all its later occurrences, preserving order. -/
def dedupFirst {α : Type} [DecidableEq α] : List α → List α
  | [] => []
  | a :: l => a :: dedupFirst (l.filter fun b => decide (b ≠ a))
termination_by l => l.length
decreasing_by
  simp only [List.length_cons]
  exact Nat.lt_succ_of_le (List.length_filter_le _ _)

/-- A fetch behavior where the video step fails with a bare error text. -/
def badFetch : Step → Option (List Char)
  | Step.video => some (("boom").data)
  | _ => none

/-- The round-trip input of the spec: three consecutive cue blocks, each
with the two tag-wrapped cue lines, interleaved with cue-timing lines. -/
def c4input : List Char :=
  ("00:00:00.000 --> 00:00:01.000\n<00:00:01.000><c> hello</c>\n<00:00:02.000><c> world</c>\n00:00:01.000 --> 00:00:02.000\n<00:00:01.000><c> hello</c>\n<00:00:02.000><c> world</c>\n00:00:02.000 --> 00:00:03.000\n<00:00:01.000><c> hello</c>\n<00:00:02.000><c> world</c>").data

/-- A caption input whose normalized output is itself discarded by the
timestamp heuristic on a second pass: the raw line is 37 bytes long, but
stripping the tag leaves the 6-byte line 4:30.5. -/
def c5bad : List Char := ("<aaaaaaaaaaaaaaaaaaaaaaaaaaaaa>4:30.5").data

/-! ### Bridging lemmas between the Go string functions and list predicates -/

/-- Relates strings.Contains to the substring relation. -/
lemma hasSub_iff (s sub : List Char) : hasSub s sub = true ↔ sub <:+: s := by
  induction s with
  | nil => simp [hasSub, List.isEmpty_iff]
  | cons c t ih =>
    simp [hasSub, Bool.or_eq_true, ih, List.infix_cons_iff,
      List.isPrefixOf_iff_prefix]

/-- Containment of a one-character substring is membership. -/
lemma hasSub_singleton (c : Char) (s : List Char) :
    hasSub s [c] = true ↔ c ∈ s := by
  rw [hasSub_iff]
  constructor
  · intro h
    exact h.subset (List.mem_singleton_self c)
  · intro h
    obtain ⟨u, v, rfl⟩ := List.append_of_mem h
    exact ⟨u, v, by simp⟩

/-- A one-element list is a contiguous sublist exactly when its element is
a member. -/
lemma singleton_infix_iff (c : Char) (s : List Char) :
    [c] <:+: s ↔ c ∈ s := by
  constructor
  · intro h
    exact h.subset (List.mem_singleton_self c)
  · intro h
    obtain ⟨u, v, rfl⟩ := List.append_of_mem h
    exact ⟨u, v, by simp⟩

/-- The skip condition of the line loop, as a disjunction of plain
predicates. -/
lemma skipLine_iff (l : List Char) : skipLine l = true ↔
    (l = [] ∨ l = ("WEBVTT").data ∨ l = ("Kind: captions").data ∨
     ("Language:").data <+: l ∨ ("NOTE").data <+: l ∨
     ("-->").data <:+: l ∨
     (':' ∈ l ∧ ('.' ∈ l ∨ ',' ∈ l) ∧ utf8Len l < 30)) := by
  unfold skipLine isTimestamp
  simp only [Bool.or_eq_true, Bool.and_eq_true, decide_eq_true_eq,
    hasSub_iff, singleton_infix_iff, List.isPrefixOf_iff_prefix]
  tauto

/-- C1: a line of a caption file is discarded by the filter of
extractText / dedupeVTT exactly when, after trimming, it is empty, equals
WEBVTT, equals Kind: captions, starts with Language: or NOTE, contains
the cue-timing separator, satisfies the timestamp heuristic, or becomes
empty after tag stripping; all other lines survive the filter. -/
theorem spec2_C1 (line : List Char) : keepLine line = none ↔ droppedSpec line := by
  have h1 : keepLine line = none ↔
      (skipLine (trimSpace line) = true ∨ trimSpace (stripTags (trimSpace line)) = []) := by
    unfold keepLine
    split_ifs with hs he
    · simp [hs]
    · simp [hs, he]
    · simp [hs, he]
  rw [h1, skipLine_iff]
  unfold droppedSpec
  simp only [or_assoc]

/-! ### Sanitizer -/

/-- Whatever replaceChar emits is never one of the nine bad characters. -/
lemma replaceChar_ok (c x : Char) (hx : x ∈ replaceChar c) : x ∉ badChars := by
  unfold replaceChar at hx
  split_ifs at hx with h1 h2 h3 h4 h5 h6 h7 h8 h9
  · simp at hx; subst hx; decide
  · simp at hx; subst hx; decide
  · simp at hx; subst hx; decide
  · simp at hx
  · simp at hx
  · simp at hx
  · simp at hx
  · simp at hx
  · simp at hx
  · simp at hx; subst hx
    simp [badChars]
    exact ⟨h1, h2, h3, h4, h5, h6, h7, h8, h9⟩

/-- No character of a sanitized name is one of the nine bad characters. -/
lemma sanitize_never_bad : ∀ (s : List Char) (x : Char),
    x ∈ sanitizeFilename s → x ∉ badChars := by
  intro s
  induction s with
  | nil => intro x hx; simp [sanitizeFilename] at hx
  | cons c t ih =>
    intro x hx
    simp only [sanitizeFilename, List.mem_append] at hx
    rcases hx with h | h
    · exact replaceChar_ok c x h
    · exact ih x h

/-- C3: sanitizeFilename replaces each '/', '\' and ':' with '-', deletes
each '*', '?', '"', '<', '>' and '|', leaves every other character
unchanged, and its output never contains any of those nine characters. -/
theorem spec2_C3 :
    (∀ c s, (c = '/' ∨ c = '\\' ∨ c = ':') →
      sanitizeFilename (c :: s) = '-' :: sanitizeFilename s) ∧
    (∀ c s, (c = '*' ∨ c = '?' ∨ c = '"' ∨ c = '<' ∨ c = '>' ∨ c = '|') →
      sanitizeFilename (c :: s) = sanitizeFilename s) ∧
    (∀ c s, c ∉ badChars → sanitizeFilename (c :: s) = c :: sanitizeFilename s) ∧
    (∀ s x, x ∈ sanitizeFilename s → x ∉ badChars) := by
  refine ⟨?_, ?_, ?_, sanitize_never_bad⟩
  · intro c s h
    rcases h with rfl | rfl | rfl <;> rfl
  · intro c s h
    rcases h with rfl | rfl | rfl | rfl | rfl | rfl <;> rfl
  · intro c s h
    simp only [badChars, List.mem_cons, List.not_mem_nil, or_false, not_or] at h
    obtain ⟨h1, h2, h3, h4, h5, h6, h7, h8, h9⟩ := h
    simp [sanitizeFilename, replaceChar, h1, h2, h3, h4, h5, h6, h7, h8, h9]

/-- Witness for C3 at concrete inputs. -/
theorem spec2_C3_witness :
    sanitizeFilename ['/', 'a'] = '-' :: sanitizeFilename ['a'] ∧
    sanitizeFilename ['*', 'a'] = sanitizeFilename ['a'] ∧
    sanitizeFilename ['a', 'b'] = 'a' :: sanitizeFilename ['b'] ∧
    '-' ∉ badChars :=
  ⟨spec2_C3.1 '/' ['a'] (Or.inl rfl),
   spec2_C3.2.1 '*' ['a'] (Or.inl rfl),
   spec2_C3.2.2.1 'a' ['b'] (by decide),
   spec2_C3.2.2.2 ['/'] '-' (by decide)⟩

/-! ### stripTags -/

/-- Scanning a concatenation: output of the first part, then output of the
second part started in the state the first part leaves behind. -/
lemma stripTagsAux_append (t : Bool) (x y : List Char) :
    stripTagsAux t (x ++ y) = stripTagsAux t x ++ stripTagsAux (tagState t x) y := by
  induction x generalizing t with
  | nil => simp [stripTagsAux, tagState]
  | cons a r ih =>
    simp only [List.cons_append, stripTagsAux, tagState]
    by_cases h1 : a = '<'
    · simp [h1, ih]
    · by_cases h2 : a = '>'
      · simp [h1, h2, ih]
      · cases t <;> simp [h1, h2, ih]

/-- Scanning a '<' always moves to the in-tag state. -/
lemma stripTagsAux_lt (t : Bool) (rest : List Char) :
    stripTagsAux t ('<' :: rest) = stripTagsAux true rest := by
  cases t <;> simp [stripTagsAux]

/-- Scanning a '>' always moves to the out-of-tag state. -/
lemma stripTagsAux_gt (t : Bool) (rest : List Char) :
    stripTagsAux t ('>' :: rest) = stripTagsAux false rest := by
  cases t <;> simp [stripTagsAux]

/-- With no closing '>', the in-tag state persists. -/
lemma tagState_true_of_no_gt (b : List Char) (h : '>' ∉ b) :
    tagState true b = true := by
  induction b with
  | nil => rfl
  | cons a r ih =>
    simp only [List.mem_cons, not_or] at h
    obtain ⟨h1, h2⟩ := h
    have h1' : a ≠ '>' := fun hh => h1 hh.symm
    by_cases ha : a = '<'
    · simp [tagState, ha, ih h2]
    · simp [tagState, ha, h1', ih h2]

/-- In the in-tag state, everything up to a closing '>' is dropped. -/
lemma stripTagsAux_true_of_no_gt (b : List Char) (h : '>' ∉ b) :
    stripTagsAux true b = [] := by
  induction b with
  | nil => rfl
  | cons a r ih =>
    simp only [List.mem_cons, not_or] at h
    obtain ⟨h1, h2⟩ := h
    have h1' : a ≠ '>' := fun hh => h1 hh.symm
    by_cases ha : a = '<'
    · simp [stripTagsAux, ha, ih h2]
    · simp [stripTagsAux, ha, h1', ih h2]

/-- The tag state after a concatenation. -/
lemma tagState_append (t : Bool) (x y : List Char) :
    tagState t (x ++ y) = tagState (tagState t x) y := by
  induction x generalizing t with
  | nil => rfl
  | cons a r ih =>
    simp only [List.cons_append, tagState]
    by_cases h1 : a = '<'
    · simp [h1, ih]
    · by_cases h2 : a = '>'
      · simp [h1, h2, ih]
      · simp [h1, h2, ih]

/-- Output characters of the tag scanner are never angle brackets. -/
lemma stripTagsAux_no_angle (t : Bool) (s : List Char) :
    ∀ ch ∈ stripTagsAux t s, ch ≠ '<' ∧ ch ≠ '>' := by
  induction s generalizing t with
  | nil => simp [stripTagsAux]
  | cons a r ih =>
    intro ch hch
    by_cases h1 : a = '<'
    · exact ih true ch (by simpa [stripTagsAux, h1] using hch)
    · by_cases h2 : a = '>'
      · exact ih false ch (by simpa [stripTagsAux, h1, h2] using hch)
      · cases t
        · rcases (by simpa [stripTagsAux, h1, h2] using hch :
              ch = a ∨ ch ∈ stripTagsAux false r) with rfl | hm
          · exact ⟨h1, h2⟩
          · exact ih false ch hm
        · exact ih true ch (by simpa [stripTagsAux, h1, h2] using hch)

/-- C10: stripTags removes every character between a '<' and the next '>',
removes everything after a '<' with no subsequent '>', and its output
contains no '<' and no '>'. -/
theorem spec2_C10 (a b c : List Char) (h : '>' ∉ b) :
    stripTags (a ++ ('<' :: b) ++ ('>' :: c)) = stripTags a ++ stripTags c ∧
    stripTags (a ++ ('<' :: b)) = stripTags a ∧
    (∀ s ch, ch ∈ stripTags s → ch ≠ '<' ∧ ch ≠ '>') := by
  have hmid : ∀ t : Bool, stripTagsAux t ('<' :: b) = [] := by
    intro t
    rw [stripTagsAux_lt, stripTagsAux_true_of_no_gt b h]
  have hstate : ∀ t : Bool, tagState t ('<' :: b) = true := by
    intro t
    have : tagState t ('<' :: b) = tagState true b := by
      cases t <;> simp [tagState]
    rw [this, tagState_true_of_no_gt b h]
  refine ⟨?_, ?_, fun s ch hm => stripTagsAux_no_angle false s ch hm⟩
  · unfold stripTags
    rw [stripTagsAux_append, stripTagsAux_append, hmid, tagState_append, hstate,
      stripTagsAux_gt]
    simp
  · unfold stripTags
    rw [stripTagsAux_append, hmid]
    simp

/-- Witness for C10 at concrete inputs. -/
theorem spec2_C10_witness :
    stripTags (['x'] ++ ('<' :: ['t']) ++ ('>' :: ['y'])) =
      stripTags ['x'] ++ stripTags ['y'] ∧
    stripTags (['x'] ++ ('<' :: ['t'])) = stripTags ['x'] :=
  ⟨(spec2_C10 ['x'] ['t'] ['y'] (by decide)).1,
   (spec2_C10 ['x'] ['t'] ['y'] (by decide)).2.1⟩

/-! ### Deduplication -/

/-- Unfolding equation of dedupFirst on a cons cell. -/
lemma dedupFirst_cons {α : Type} [DecidableEq α] (a : α) (l : List α) :
    dedupFirst (a :: l) = a :: dedupFirst (l.filter fun b => decide (b ≠ a)) := by
  rw [dedupFirst]

/-- dedupFirst preserves membership. -/
lemma mem_dedupFirst {α : Type} [DecidableEq α] (x : α) :
    ∀ l : List α, x ∈ dedupFirst l ↔ x ∈ l := by
  intro l
  induction l using dedupFirst.induct with
  | case1 => simp [dedupFirst]
  | case2 a t ih =>
    rw [dedupFirst_cons]
    simp only [List.mem_cons, ih, List.mem_filter, decide_eq_true_eq]
    constructor
    · rintro (rfl | ⟨hm, _⟩)
      · exact Or.inl rfl
      · exact Or.inr hm
    · rintro (rfl | hm)
      · exact Or.inl rfl
      · by_cases hx : x = a
        · exact Or.inl hx
        · exact Or.inr ⟨hm, hx⟩

/-- dedupFirst yields a list without duplicates. -/
lemma nodup_dedupFirst {α : Type} [DecidableEq α] :
    ∀ l : List α, (dedupFirst l).Nodup := by
  intro l
  induction l using dedupFirst.induct with
  | case1 => simp [dedupFirst]
  | case2 a t ih =>
    rw [dedupFirst_cons]
    refine List.nodup_cons.mpr ⟨?_, ih⟩
    intro hmem
    have := (mem_dedupFirst a _).mp hmem
    simp at this

/-- dedupFirst is the identity on lists without duplicates. -/
lemma dedupFirst_eq_self {α : Type} [DecidableEq α] :
    ∀ l : List α, l.Nodup → dedupFirst l = l := by
  intro l
  induction l using dedupFirst.induct with
  | case1 => intro _; rw [dedupFirst]
  | case2 a t ih =>
    intro hn
    obtain ⟨hna, hnt⟩ := List.nodup_cons.mp hn
    have hfe : (t.filter fun b => decide (b ≠ a)) = t := by
      apply List.filter_eq_self.mpr
      intro b hb
      simp only [decide_eq_true_eq]
      intro hh
      exact hna (hh ▸ hb)
    rw [hfe] at ih
    rw [dedupFirst_cons, hfe, ih hnt]

/-- The extractText line loop equals spec-side first-occurrence
deduplication of the kept lines not already seen. -/
lemma normalizeAux_eq (lines : List (List Char)) : ∀ seen,
    normalizeAux seen lines =
      dedupFirst ((lines.filterMap keepLine).filter fun l => decide (l ∉ seen)) := by
  induction lines with
  | nil => intro seen; simp [normalizeAux, dedupFirst]
  | cons line rest ih =>
    intro seen
    cases hk : keepLine line with
    | none => simp [normalizeAux, hk, List.filterMap_cons, ih]
    | some u =>
      by_cases hu : u ∈ seen
      · simp [normalizeAux, hk, hu, List.filterMap_cons, ih]
      · have hstep : normalizeAux seen (line :: rest) =
            u :: normalizeAux (u :: seen) rest := by
          simp [normalizeAux, hk, hu]
        rw [hstep, List.filterMap_cons, hk]
        rw [List.filter_cons_of_pos (by simp [hu])]
        rw [dedupFirst_cons, List.filter_filter]
        have hpt : ∀ b ∈ (rest.filterMap keepLine),
            (decide (b ≠ u) && decide (b ∉ seen)) = decide (b ∉ u :: seen) := by
          intro b _
          by_cases hbs : b ∈ seen <;> by_cases hbu : b = u <;>
            simp [hbs, hbu, List.mem_cons]
        rw [List.filter_congr hpt, ih]

/-- Shape of a kept line: it is the trimmed tag-stripped trimmed input
line, and it is non-empty. -/
lemma keepLine_some {line u : List Char} (h : keepLine line = some u) :
    u = trimSpace (stripTags (trimSpace line)) ∧ u ≠ [] := by
  unfold keepLine at h
  split_ifs at h with hs he
  have h2 := Option.some.inj h
  exact ⟨h2.symm, fun hh => he (h2.trans hh)⟩

/-- C2: every line of the normalizer's output is non-empty and occurs
exactly once (the output list has no duplicates), and the output is the
first-occurrence deduplication of the filtered, tag-stripped input lines
in their original order. -/
theorem spec2_C2 (content : List Char) :
    extractText content = joinNL (normalizeAux [] (splitOnNL content)) ∧
    (∀ l ∈ normalizeAux [] (splitOnNL content), l ≠ []) ∧
    (normalizeAux [] (splitOnNL content)).Nodup ∧
    normalizeAux [] (splitOnNL content) =
      dedupFirst ((splitOnNL content).filterMap keepLine) := by
  have he : normalizeAux [] (splitOnNL content) =
      dedupFirst ((splitOnNL content).filterMap keepLine) := by
    rw [normalizeAux_eq]
    congr 1
    apply List.filter_eq_self.mpr
    intro b _
    simp
  refine ⟨rfl, ?_, ?_, he⟩
  · intro l hl
    rw [he, mem_dedupFirst] at hl
    obtain ⟨line, _, hk⟩ := List.mem_filterMap.mp hl
    exact (keepLine_some hk).2
  · rw [he]
    exact nodup_dedupFirst _

/-! ### Trimming -/

/-- dropWhile is idempotent. -/
lemma dropWhile_idem (p : Char → Bool) (l : List Char) :
    (l.dropWhile p).dropWhile p = l.dropWhile p := by
  induction l with
  | nil => rfl
  | cons c t ih =>
    by_cases h : p c
    · simp [List.dropWhile_cons, h, ih]
    · simp [List.dropWhile_cons, h]

/-- The head surviving dropWhile fails the predicate. -/
lemma head_dropWhile_false (p : Char → Bool) (l : List Char) :
    ∀ c, (l.dropWhile p).head? = some c → p c = false := by
  induction l with
  | nil => intro c hc; simp at hc
  | cons a t ih =>
    intro c hc
    by_cases h : p a
    · exact ih c (by simpa [List.dropWhile_cons, h] using hc)
    · simp only [List.dropWhile_cons, if_neg h, List.head?_cons, Option.some.injEq] at hc
      subst hc
      simpa using h

/-- trimLeft is the identity when the head is not whitespace. -/
lemma trimLeft_eq_self {s : List Char}
    (h : ∀ c, s.head? = some c → goIsSpace c = false) : trimLeft s = s := by
  cases s with
  | nil => rfl
  | cons a t => simp [trimLeft, List.dropWhile_cons, h a rfl]

/-- trimRight is the identity when the last character is not whitespace. -/
lemma trimRight_eq_self {s : List Char}
    (h : ∀ c, s.getLast? = some c → goIsSpace c = false) : trimRight s = s := by
  unfold trimRight
  have hr : s.reverse.dropWhile goIsSpace = s.reverse := by
    cases hc : s.reverse with
    | nil => rfl
    | cons a t =>
      have ha : s.getLast? = some a := by
        rw [← List.head?_reverse, hc]
        rfl
      simp [List.dropWhile_cons, h a ha]
  rw [hr, List.reverse_reverse]

/-- The last character of a right-trimmed list is not whitespace. -/
lemma trimRight_getLast {s : List Char} :
    ∀ c, (trimRight s).getLast? = some c → goIsSpace c = false := by
  intro c hc
  rw [← List.head?_reverse] at hc
  unfold trimRight at hc
  rw [List.reverse_reverse] at hc
  exact head_dropWhile_false _ _ c hc

/-- trimRight of a list is one of its initial segments. -/
lemma trimRight_pfx (s : List Char) : trimRight s <+: s := by
  have hsuf : s.reverse.dropWhile goIsSpace <:+ s.reverse :=
    List.dropWhile_suffix _
  have h2 := List.reverse_prefix.mpr hsuf
  simpa [trimRight] using h2

/-- A non-empty initial segment has the same head. -/
lemma head?_of_pfx {x y : List Char} (h : x <+: y) (hx : x ≠ []) :
    y.head? = x.head? := by
  obtain ⟨t, rfl⟩ := h
  cases x with
  | nil => exact absurd rfl hx
  | cons a r => rfl

/-- trimSpace is idempotent. -/
lemma trimSpace_idem (s : List Char) : trimSpace (trimSpace s) = trimSpace s := by
  unfold trimSpace
  have hL : trimLeft (trimRight (trimLeft s)) = trimRight (trimLeft s) := by
    apply trimLeft_eq_self
    intro c hc
    by_cases hne : trimRight (trimLeft s) = []
    · rw [hne] at hc
      simp at hc
    · have h1 : (trimLeft s).head? = (trimRight (trimLeft s)).head? :=
        head?_of_pfx (trimRight_pfx (trimLeft s)) hne
      have h2 : (s.dropWhile goIsSpace).head? = some c := by
        have := h1.trans hc
        simpa [trimLeft] using this
      exact head_dropWhile_false goIsSpace s c h2
  rw [hL]
  exact trimRight_eq_self (fun c hc => trimRight_getLast c hc)

/-- Characters of a trimmed list are characters of the original. -/
lemma mem_trimSpace {c : Char} {s : List Char} (h : c ∈ trimSpace s) : c ∈ s := by
  unfold trimSpace trimRight trimLeft at h
  rw [List.mem_reverse] at h
  have h2 := (List.dropWhile_suffix goIsSpace).subset h
  rw [List.mem_reverse] at h2
  exact (List.dropWhile_suffix goIsSpace).subset h2

/-! ### Splitting and joining -/

/-- splitOnNL never returns the empty list of lines. -/
lemma splitOnNL_ne_nil (s : List Char) : splitOnNL s ≠ [] := by
  cases s with
  | nil => simp [splitOnNL]
  | cons c t =>
    by_cases h : c = '\n'
    · simp [splitOnNL, h]
    · cases ht : splitOnNL t with
      | nil => simp [splitOnNL, h, ht]
      | cons a r => simp [splitOnNL, h, ht]

/-- Lines produced by splitOnNL contain no newline. -/
lemma mem_splitOnNL_no_nl (s : List Char) : ∀ l ∈ splitOnNL s, '\n' ∉ l := by
  induction s with
  | nil =>
    intro l hl
    simp [splitOnNL] at hl
    simp [hl]
  | cons c t ih =>
    intro l hl
    by_cases h : c = '\n'
    · rw [show splitOnNL (c :: t) = [] :: splitOnNL t by simp [splitOnNL, h]] at hl
      rcases List.mem_cons.mp hl with rfl | hm
      · simp
      · exact ih l hm
    · cases ht : splitOnNL t with
      | nil => exact absurd ht (splitOnNL_ne_nil t)
      | cons a r =>
        rw [show splitOnNL (c :: t) = (c :: a) :: r by simp [splitOnNL, h, ht]] at hl
        rcases List.mem_cons.mp hl with rfl | hm
        · intro hmem
          rcases List.mem_cons.mp hmem with h1 | h2
          · exact h h1.symm
          · exact ih a (by rw [ht]; exact List.mem_cons_self a r) h2
        · exact ih l (by rw [ht]; exact List.mem_cons_of_mem a hm)

/-- A newline-free list splits into itself. -/
lemma splitOnNL_single {s : List Char} (h : '\n' ∉ s) : splitOnNL s = [s] := by
  induction s with
  | nil => rfl
  | cons c t ih =>
    simp only [List.mem_cons, not_or] at h
    obtain ⟨h1, h2⟩ := h
    have hc : c ≠ '\n' := fun hh => h1 hh.symm
    simp [splitOnNL, hc, ih h2]

/-- Splitting after a newline-free chunk followed by a newline. -/
lemma splitOnNL_append {l r : List Char} (h : '\n' ∉ l) :
    splitOnNL (l ++ '\n' :: r) = l :: splitOnNL r := by
  induction l with
  | nil => simp [splitOnNL]
  | cons c t ih =>
    simp only [List.mem_cons, not_or] at h
    obtain ⟨h1, h2⟩ := h
    have hc : c ≠ '\n' := fun hh => h1 hh.symm
    simp [splitOnNL, hc, ih h2]

/-- splitOnNL is a left inverse of joinNL on non-empty lists of
newline-free lines. -/
lemma splitOnNL_joinNL : ∀ ls : List (List Char), ls ≠ [] →
    (∀ l ∈ ls, '\n' ∉ l) → splitOnNL (joinNL ls) = ls := by
  intro ls
  induction ls with
  | nil => intro h _; exact absurd rfl h
  | cons l rest ih =>
    intro _ hnl
    cases rest with
    | nil =>
      show splitOnNL (joinNL [l]) = [l]
      have hj : joinNL [l] = l := rfl
      rw [hj, splitOnNL_single (hnl l (List.mem_cons_self _ _))]
    | cons l2 rs =>
      have hj : joinNL (l :: l2 :: rs) = l ++ '\n' :: joinNL (l2 :: rs) := rfl
      rw [hj, splitOnNL_append (hnl l (List.mem_cons_self _ _)),
        ih (by simp) (fun x hx => hnl x (List.mem_cons_of_mem _ hx))]

/-! ### Cleanliness of normalizer output and idempotence -/

/-- Characters surviving the tag scanner come from the input. -/
lemma mem_stripTagsAux {c : Char} (s : List Char) :
    ∀ t, c ∈ stripTagsAux t s → c ∈ s := by
  induction s with
  | nil => intro t h; simp [stripTagsAux] at h
  | cons a r ih =>
    intro t h
    by_cases h1 : a = '<'
    · exact List.mem_cons_of_mem a (ih true (by simpa [stripTagsAux, h1] using h))
    · by_cases h2 : a = '>'
      · exact List.mem_cons_of_mem a (ih false (by simpa [stripTagsAux, h1, h2] using h))
      · cases t
        · rcases (by simpa [stripTagsAux, h1, h2] using h :
              c = a ∨ c ∈ stripTagsAux false r) with rfl | hm
          · exact List.mem_cons_self _ _
          · exact List.mem_cons_of_mem a (ih false hm)
        · exact List.mem_cons_of_mem a (ih true (by simpa [stripTagsAux, h1, h2] using h))

/-- stripTags is the identity on angle-bracket-free input. -/
lemma stripTags_eq_self : ∀ s : List Char,
    (∀ c ∈ s, c ≠ '<' ∧ c ≠ '>') → stripTags s = s := by
  intro s
  unfold stripTags
  induction s with
  | nil => intro _; rfl
  | cons a r ih =>
    intro h
    obtain ⟨h1, h2⟩ := h a (List.mem_cons_self _ _)
    simp [stripTagsAux, h1, h2, ih (fun c hc => h c (List.mem_cons_of_mem a hc))]

/-- The normalizer's output from the empty seen set has no duplicates. -/
lemma normalizeAux_nil_nodup (lines : List (List Char)) :
    (normalizeAux [] lines).Nodup := by
  rw [normalizeAux_eq]
  exact nodup_dedupFirst _

/-- Every output line of the normalizer is trimmed, non-empty, free of
newlines and free of angle brackets. -/
lemma out_line_clean {content l : List Char}
    (hl : l ∈ normalizeAux [] (splitOnNL content)) :
    trimSpace l = l ∧ l ≠ [] ∧ '\n' ∉ l ∧ stripTags l = l := by
  have hmem : l ∈ (splitOnNL content).filterMap keepLine := by
    rw [normalizeAux_eq, mem_dedupFirst] at hl
    exact (List.mem_filter.mp hl).1
  obtain ⟨line, hline, hk⟩ := List.mem_filterMap.mp hmem
  obtain ⟨hshape, hne⟩ := keepLine_some hk
  have hsub : ∀ c ∈ l, c ∈ stripTags (trimSpace line) := by
    intro c hc
    rw [hshape] at hc
    exact mem_trimSpace hc
  refine ⟨by rw [hshape]; exact trimSpace_idem _, hne, ?_, ?_⟩
  · intro hmem2
    have h3 := mem_stripTagsAux _ false (hsub _ hmem2)
    have h4 := mem_trimSpace h3
    exact mem_splitOnNL_no_nl content line hline h4
  · apply stripTags_eq_self
    intro c hc
    exact stripTagsAux_no_angle false _ c (hsub c hc)

/-- A clean, unskipped, unseen list of lines passes through the
normalizer loop unchanged. -/
lemma normalizeAux_self : ∀ (L : List (List Char)),
    (∀ l ∈ L, keepLine l = some l) → L.Nodup →
    ∀ seen, (∀ l ∈ L, l ∉ seen) → normalizeAux seen L = L := by
  intro L
  induction L with
  | nil => intro _ _ _ _; rfl
  | cons a t ih =>
    intro hK hN seen hS
    have hk := hK a (List.mem_cons_self _ _)
    have hns := hS a (List.mem_cons_self _ _)
    simp only [normalizeAux, hk]
    rw [if_neg hns]
    congr 1
    apply ih (fun l hl => hK l (List.mem_cons_of_mem _ hl)) (List.nodup_cons.mp hN).2
    intro l hl hmem
    rcases List.mem_cons.mp hmem with rfl | hm
    · exact (List.nodup_cons.mp hN).1 hl
    · exact hS l (List.mem_cons_of_mem _ hl) hm

/-- A trimmed, tag-free, non-empty, unskipped line is kept unchanged. -/
lemma keepLine_self {l : List Char} (ht : trimSpace l = l)
    (hs : skipLine l = false) (hst : stripTags l = l) (hne : l ≠ []) :
    keepLine l = some l := by
  unfold keepLine
  rw [ht, hst, ht]
  simp [hs, hne]

/-- C5 counterexample: normalization is not idempotent. The single input
line of c5bad is 37 bytes, so it survives the filter; stripping its tag
leaves the 6-byte line 4:30.5, which the timestamp heuristic discards on
a second pass. -/
theorem spec2_C5_cex :
    extractText (extractText c5bad) ≠ extractText c5bad := by decide

/-- C5 amended: normalization is idempotent for every caption input whose
normalized output lines all fail the line-skip condition (in particular
none matches the timestamp heuristic or a header pattern). -/
theorem spec2_C5_amended (content : List Char)
    (h : ∀ l ∈ normalizeAux [] (splitOnNL content), skipLine l = false) :
    extractText (extractText content) = extractText content := by
  cases hL : normalizeAux [] (splitOnNL content) with
  | nil =>
    unfold extractText
    rw [hL]
    rfl
  | cons l0 rest =>
    have hclean : ∀ l ∈ l0 :: rest,
        trimSpace l = l ∧ l ≠ [] ∧ '\n' ∉ l ∧ stripTags l = l := by
      intro l hl
      exact out_line_clean (by rw [hL]; exact hl)
    have hnodup : (l0 :: rest).Nodup := by
      rw [← hL]
      exact normalizeAux_nil_nodup _
    have hK : ∀ l ∈ l0 :: rest, keepLine l = some l := by
      intro l hl
      obtain ⟨ht, hne, hnl, hst⟩ := hclean l hl
      exact keepLine_self ht (h l (by rw [hL]; exact hl)) hst hne
    unfold extractText
    rw [hL]
    rw [splitOnNL_joinNL (l0 :: rest) (by simp) (fun l hl => (hclean l hl).2.2.1)]
    rw [normalizeAux_self (l0 :: rest) hK hnodup [] (by simp)]

/-- Witness for the amended C5 at a concrete caption input. -/
theorem spec2_C5_witness :
    extractText (extractText (("WEBVTT\nhello world").data)) =
      extractText (("WEBVTT\nhello world").data) :=
  spec2_C5_amended (("WEBVTT\nhello world").data) (by decide)

/-- C4 counterexample: the spec's round-trip input does not normalize to
the two lines hello and world — each 27-byte tag-wrapped cue line
contains a colon and a period and is under 30 bytes, so the timestamp
heuristic discards it. -/
theorem spec2_C4_cex : extractText c4input ≠ ("hello\nworld").data := by decide

/-- C4 amended: the spec's round-trip input normalizes to the empty
transcript, because every cue text line is caught by the timestamp
heuristic and every timing line contains the cue separator. -/
theorem spec2_C4_amended : extractText c4input = [] := by decide

/-! ### Equivalence of the two normalization implementations -/

/-- The duplicated per-line filter of dedupeVTT equals that of
extractText. -/
lemma keepLineD_eq (line : List Char) : keepLineD line = keepLine line := rfl

/-- The duplicated loop of dedupeVTT equals that of extractText. -/
lemma normalizeAuxD_eq (lines : List (List Char)) :
    ∀ seen, normalizeAuxD seen lines = normalizeAux seen lines := by
  induction lines with
  | nil => intro seen; rfl
  | cons line rest ih =>
    intro seen
    simp only [normalizeAuxD, normalizeAux, keepLineD_eq, ih]

/-- C9: for every file content, dedupeVTT writes exactly the string
extractText returns for the same content. -/
theorem spec2_C9 (content : List Char) : dedupeVTT content = extractText content := by
  unfold dedupeVTT extractText
  rw [normalizeAuxD_eq]

/-! ### Step orchestration -/

/-- The executed steps are an initial segment of the step list. -/
lemma runSteps_fst_pfx (fetch : Step → Option (List Char)) :
    ∀ steps : List Step, (runSteps fetch steps).1 <+: steps := by
  intro steps
  induction steps with
  | nil => simp [runSteps]
  | cons s rest ih =>
    cases hf : fetch s with
    | some e =>
      simp only [runSteps, hf]
      exact ⟨rest, rfl⟩
    | none =>
      obtain ⟨t, ht⟩ := ih
      refine ⟨t, ?_⟩
      simp only [runSteps, hf]
      simp [ht]

/-- C6: the step list is built in the fixed order video, audio, subtitles
(a filter of that fixed order by the requested flags, so independent of
any selection order), execution follows that list in order, and the
request for subtitles and video yields video before subtitles. -/
theorem spec2_C6 (opts : DownloadOptions) (fetch : Step → Option (List Char))
    (p : List Char) :
    buildSteps opts = [Step.video, Step.audio, Step.subs].filter (requested opts) ∧
    (runSteps fetch (buildSteps opts)).1 <+: buildSteps opts ∧
    buildSteps ⟨true, false, true, false, p⟩ = [Step.video, Step.subs] := by
  refine ⟨?_, runSteps_fst_pfx fetch _, rfl⟩
  rcases opts with ⟨v, a, s, m, pr⟩
  cases v <;> cases a <;> cases s <;> rfl

/-- C7 counterexample: in the multi-select orchestrator a failing video
step does short-circuit the run, but the reported error is the bare
fetch error, which does not name the video stage. -/
theorem spec2_C7_cex :
    runSteps badFetch [Step.video, Step.audio, Step.subs] =
      ([Step.video], some (("boom").data)) ∧
    hasSub (("boom").data) (("video").data) = false := by
  exact ⟨rfl, rfl⟩

/-- C7 amended: when a step fails, no later step of the run executes; the
multi-select orchestrator propagates the fetch error unchanged, while the
single-select variant's combined mode wraps a video failure with a
message naming the video stage. -/
theorem spec2_C7_amended (fetch : Step → Option (List Char)) (e : List Char)
    (steps1 steps2 : List Step) (s : Step)
    (h1 : ∀ t ∈ steps1, fetch t = none) (h2 : fetch s = some e) :
    runSteps fetch (steps1 ++ s :: steps2) = (steps1 ++ [s], some e) ∧
    (fetch Step.video = some e →
      runDownloadAll fetch =
        ([Step.video], some (("video download failed: ").data ++ e))) := by
  constructor
  · induction steps1 with
    | nil => simp [runSteps, h2]
    | cons t ts ih =>
      have hft := h1 t (List.mem_cons_self _ _)
      have ihh := ih (fun x hx => h1 x (List.mem_cons_of_mem _ hx))
      simp only [List.cons_append, runSteps, hft]
      simp [ihh]
  · intro hv
    simp [runDownloadAll, hv]

/-- Witness for the amended C7 at a concrete failing fetch. -/
theorem spec2_C7_witness :
    runSteps badFetch ([] ++ Step.video :: [Step.audio, Step.subs]) =
      ([] ++ [Step.video], some (("boom").data)) ∧
    runDownloadAll badFetch =
      ([Step.video], some (("video download failed: ").data ++ ("boom").data)) :=
  ⟨(spec2_C7_amended badFetch (("boom").data) [] [Step.audio, Step.subs] Step.video
      (by intro t ht; simp at ht) rfl).1,
   (spec2_C7_amended badFetch (("boom").data) [] [Step.audio, Step.subs] Step.video
      (by intro t ht; simp at ht) rfl).2 rfl⟩

/-! ### Search-directory derivation -/

/-- C8 counterexample: the stem /video contains a path separator (its
last slash sits at index 0), yet the search directory is the default "."
and not the part before the last separator (the empty string). -/
theorem spec2_C8_cex :
    ('/' ∈ ("/video").data) ∧
    lastSlashIdx (("/video").data) = some 0 ∧
    searchDirFor [] (("/video").data) = (".").data ∧
    (".").data ≠ (("/video").data).take 0 := by decide

/-- C8 amended: if the custom stem's last path separator sits at a
positive index, the search directory is everything before it; otherwise —
no custom stem, no separator, or the only separator at index 0 — the
configured output directory (default the current directory) is used. -/
theorem spec2_C8_amended (outDir custom : List Char) :
    (∀ i, lastSlashIdx custom = some i → 0 < i →
      searchDirFor outDir custom = custom.take i) ∧
    ((custom = [] ∨ lastSlashIdx custom = none ∨ lastSlashIdx custom = some 0) →
      searchDirFor outDir custom = if outDir = [] then (".").data else outDir) := by
  constructor
  · intro i hi hpos
    have hne : custom ≠ [] := by
      intro hc
      rw [hc] at hi
      simp [lastSlashIdx] at hi
    unfold searchDirFor
    rw [if_neg hne, hi]
    simp [hpos]
  · rintro (rfl | hn | h0)
    · simp [searchDirFor]
    · by_cases hc : custom = []
      · simp [searchDirFor, hc]
      · simp [searchDirFor, hc, hn]
    · by_cases hc : custom = []
      · simp [searchDirFor, hc]
      · simp [searchDirFor, hc, h0]

/-- Witness for the amended C8 at a concrete stem with an interior
slash. -/
theorem spec2_C8_witness :
    searchDirFor [] ['a', '/', 'b'] = (['a', '/', 'b']).take 1 :=
  (spec2_C8_amended [] ['a', '/', 'b']).1 1 rfl (by decide)

end Tuber
